import Mathlib

set_option linter.unusedVariables false

/-!
Verification of the fANOVA tree annotation/query subsystem of
`src/include/rfr/trees/binary_fanova_tree.hpp`.

The tree is a node array indexed by dense 0-based indices; every child has a
larger index than its parent. Numbers (`num_t`) are modelled as `ℚ`; the IEEE
NaN value is modelled as `none` of `Option ℚ` (a NaN entry of a feature vector
is `none`, and the NaN/undefined sentinel returned by the query is `none`).

The source file is an unfinished fragment: several statements in it are
evident slips (names that resolve to nothing, a loop that decrements a
variable that is not in scope). Each definition below carries a comment
stating exactly how it reads the corresponding source lines and which slips
it resolves; the genuinely buggy behaviours (the empty branch in the query,
the missing cutoff check, the split of the full domain in the down pass, the
loop idiom, the swapped `vector<bool>` constructor arguments) are kept or
analysed faithfully by dedicated definitions.
-/

/-- A split decision rule: a continuous threshold, or a categorical rule with
the set of category values routed to child 0 and the scalar payload returned
by `get_num_split_value()`. The split class itself is an external collaborator
of the source file (section 6 of the design). -/
inductive SplitRule where
  | cont (threshold : ℚ)
  | cat (leftCats : List ℚ) (numValue : ℚ)
deriving DecidableEq, Repr

/-- A split object: feature index plus decision rule (section 6 of the design). -/
structure Split where
  feature : ℕ
  rule : SplitRule
deriving DecidableEq, Repr

/-- Modelled from the spec: `get_num_split_value()` returns the continuous
threshold; for a categorical split it returns the split object's scalar
payload (the design only specifies it for continuous splits). -/
def Split.get_num_split_value (s : Split) : ℚ :=
  match s.rule with
  | SplitRule.cont t => t
  | SplitRule.cat _ v => v

/-- Modelled from the spec: the routing rule `route(value)`; `true` selects
child 0. Continuous: values below the threshold go left; categorical: values
in the left category set go left (section 6 of the design and the scenario in
section 8). -/
def Split.route (s : Split) (v : ℚ) : Bool :=
  match s.rule with
  | SplitRule.cont t => decide (v < t)
  | SplitRule.cat left _ => decide (v ∈ left)

/-- A tree node (`k_ary_node_full`, external to the source file): a leaf with
its mean response, or an internal node with a split and two child indices;
both carry the parent index. -/
inductive Node where
  | leaf (mean : ℚ) (parentIdx : ℕ)
  | internal (split : Split) (child0 child1 parentIdx : ℕ)
deriving DecidableEq, Repr

/-- The parent index stored in a node. -/
def Node.parent : Node → ℕ
  | Node.leaf _ p => p
  | Node.internal _ _ _ p => p

/-- A domain (`pcs`): per feature, either a two-element interval `[lo, hi]`
(continuous) or the list of allowed category values (categorical). -/
abbrev Domain := List (List ℚ)

/-- Measure of one feature's restricted domain: interval length for a
continuous feature (`type = 0`), category count for a categorical one. -/
def featMeasure (t : ℕ) (entry : List ℚ) : ℚ :=
  if t = 0 then entry.getD 1 0 - entry.getD 0 0 else (entry.length : ℚ)

/-- Modelled from the spec: `rfr::util::subspace_cardinality` (the `rfr/util.hpp`
helper is not part of the source fragment) — the product over features of the
interval length (continuous) or category-set cardinality (categorical), per
section 4.1 of the design. -/
def subspace_cardinality (sub : Domain) (types : List ℕ) : ℚ :=
  (List.zipWith featMeasure types sub).foldl (fun a b => a * b) 1

/-- Modelled from the spec: `compute_subspaces(domain)` of the split object —
partition the domain along the split's feature: continuous splits the interval
at the threshold, categorical splits the category set by the routing rule
(sections 4.1 and 6 of the design). -/
def Split.compute_subspaces (s : Split) (d : Domain) : Domain × Domain :=
  let cur := d.getD s.feature []
  match s.rule with
  | SplitRule.cont t =>
      (d.set s.feature [cur.getD 0 0, t], d.set s.feature [t, cur.getD 1 0])
  | SplitRule.cat left _ =>
      (d.set s.feature (cur.filter (fun c => decide (c ∈ left))),
       d.set s.feature (cur.filter (fun c => decide (¬ c ∈ left))))

/-- State of the top-down pass: the per-node sizes and the per-node stored
subspaces (source lines 141, 148-149). -/
structure DownState where
  sizes : List ℚ
  subspaces : List Domain

/-- One iteration of the top-down pass (source lines 153-166), faithful to the
source with two slips resolved by name only: line 155 passes the whole
container `subspaces` to `subspace_cardinality`; the element `subspaces[i]` is
evidently meant (the commented `partition_recursor` at the end of the file
shows the intended pattern). Line 157 genuinely splits the full domain `pcs`,
not the node's restricted subspace — that behaviour is kept. The source also
performs the child-subspace writes at leaf nodes, through the leaf's
default-constructed split; those writes target child index 0 (the
zero-initialised child array) and index 0 has already been consumed, so they
never influence a stored size and are omitted here. -/
def downStep (nodes : List Node) (pcs : Domain) (types : List ℕ)
    (st : DownState) (i : ℕ) : DownState :=
  match nodes.get? i with
  | none => st
  | some nd =>
    let sizes1 := st.sizes.set i (subspace_cardinality (st.subspaces.getD i []) types)
    let subs1 :=
      match nd with
      | Node.leaf _ _ => st.subspaces
      | Node.internal s c0 c1 _ =>
        let ss := s.compute_subspaces pcs
        (st.subspaces.set c0 ss.1).set c1 ss.2
    ⟨sizes1, subs1.set i []⟩

/-- The top-down pass of `precompute_marginals` (source lines 148-166):
`subspaces[0] = pcs`, then every node index in increasing order. -/
def downPass (nodes : List Node) (pcs : Domain) (types : List ℕ) : DownState :=
  (List.range nodes.length).foldl (downStep nodes pcs types)
    ⟨List.replicate nodes.length 0, (List.replicate nodes.length ([] : Domain)).set 0 pcs⟩

/-- One iteration of the propagator as the design specifies it (section 4.1):
the node's raw volume comes from its own restricted domain, an internal node
partitions its restricted domain — not the full one — between its children,
and a leaf derives no child domains. This definition follows the spec's words
and exists to be compared with `downStep`, which follows the source. -/
def downStepSpec (nodes : List Node) (types : List ℕ)
    (st : DownState) (i : ℕ) : DownState :=
  match nodes.get? i with
  | none => st
  | some nd =>
    let cur := st.subspaces.getD i []
    let sizes1 := st.sizes.set i (subspace_cardinality cur types)
    match nd with
    | Node.leaf _ _ => ⟨sizes1, st.subspaces⟩
    | Node.internal s c0 c1 _ =>
      let ss := s.compute_subspaces cur
      ⟨sizes1, (st.subspaces.set c0 ss.1).set c1 ss.2⟩

/-- The spec-side subspace-volume propagator `propagate(domain)` (design
section 4.1): per-node raw volumes with the domain restricted along the path
from the root. -/
def propagate_spec (nodes : List Node) (pcs : Domain) (types : List ℕ) : List ℚ :=
  ((List.range nodes.length).foldl (downStepSpec nodes types)
    ⟨List.replicate nodes.length 0, (List.replicate nodes.length ([] : Domain)).set 0 pcs⟩).sizes

/-- The annotation arrays of the tree: `subspace_sizes`, `marginal_prediction`
(`none` is the NaN sentinel) and `active_variables` (source lines 41-43). -/
structure UpState where
  sizes : List ℚ
  preds : List (Option ℚ)
  actives : List (List Bool)

/-- Modelled from the spec: `rfr::util::disjunction` — elementwise OR of two
bit vectors (the union of two active-variable sets). -/
def orBits (u v : List Bool) : List Bool := List.zipWith or u v

/-- The size a child contributes to its parent's `children_subspace_size`:
its stored size if positive, else nothing (source lines 186-188). -/
def contribSize (sz : List ℚ) (c : ℕ) : ℚ :=
  if 0 < sz.getD c 0 then sz.getD c 0 else 0

/-- One child's contribution to the accumulated weighted prediction sum
(source line 189); a NaN child prediction poisons the accumulator, as IEEE
addition would. -/
def contribPred (sz : List ℚ) (preds : List (Option ℚ)) (acc : Option ℚ) (c : ℕ) : Option ℚ :=
  if 0 < sz.getD c 0 then
    match acc, preds.getD c none with
    | some a, some v => some (a + v * sz.getD c 0)
    | _, _ => none
  else acc

/-- The `children_subspace_size` accumulated over both children of an
internal node (source lines 184-191). -/
def childSum (sz : List ℚ) (c0 c1 : ℕ) : ℚ := contribSize sz c0 + contribSize sz c1

/-- The marginal prediction an internal node stores: the weighted child sum
divided by `children_subspace_size` when that is positive, else the NaN
sentinel — the source's undeclared `NaN` at line 195 read as intended
(source lines 183-195). -/
def predVal (sz : List ℚ) (preds : List (Option ℚ)) (c0 c1 : ℕ) : Option ℚ :=
  if 0 < childSum sz c0 c1 then
    (contribPred sz preds (contribPred sz preds (some 0) c0) c1).map
      (fun x => x / childSum sz c0 c1)
  else none

/-- The active-variable update an internal node performs, in source order
(lines 176-180): set the node's own split-feature bit, then OR the node's row
into its parent's row. -/
def activesUpd (ac : List (List Bool)) (j fe p : ℕ) : List (List Bool) :=
  let a1 := ac.set j ((ac.getD j []).set fe true)
  a1.set p (orBits (a1.getD j []) (a1.getD p []))

/-- The body of the bottom-up pass at one node index (source lines 170-200).
Faithfulness notes: the leaf case stores the leaf mean and nothing else — the
lower/upper cutoff check is an unimplemented TODO at source line 171, so no
leaf is ever excluded. The internal case resolves two name slips
(`subspace_size` at line 187 and `children_subspace_sizes` at line 188 both
refer to the declared names `subspace_sizes` / `children_subspace_size`). The
writes follow the source order, and the node's subspace size is overwritten
with the positive-children sum. -/
def procNode (nodes : List Node) (st : UpState) (j : ℕ) : UpState :=
  match nodes.get? j with
  | none => st
  | some (Node.leaf m _) => ⟨st.sizes, st.preds.set j (some m), st.actives⟩
  | some (Node.internal s c0 c1 p) =>
    ⟨st.sizes.set j (childSum st.sizes c0 c1),
     st.preds.set j (predVal st.sizes st.preds c0 c1),
     activesUpd st.actives j s.feature p⟩

/-- The bottom-up pass as a single descending scan: `upAux nodes st N`
processes indices `N-1, N-2, …, 0`. This is the scan the source intends at
line 169; the loop actually written there (`node_index >= 0` on an unsigned
index, decrementing a variable `i` that is not in scope) cannot terminate and
is analysed separately by `upLoopGuard` and `decIter`. -/
def upAux (nodes : List Node) : UpState → ℕ → UpState
  | st, 0 => st
  | st, Nat.succ N => upAux nodes (procNode nodes st N) N

/-- The full `precompute_marginals(lower_cutoff, upper_cutoff, pcs, types)`
(source lines 125-202): the top-down pass, then the bottom-up pass over all
node indices. `marginal_prediction` entries start unset and are each written
exactly once (children are processed before their parent). The
`active_variables` rows are initialised to `num_features` cleared bits — the
evident intent of source line 162, whose literal constructor call
`std::vector<bool>(0, num_features)` transposes the two arguments and builds
an empty row (kept faithfully in `initActiveVars` below). The cutoffs are
accepted but unused, because the leaf cutoff check is a TODO in the source. -/
def precompute_marginals (nodes : List Node) (lower_cutoff upper_cutoff : ℚ)
    (pcs : Domain) (types : List ℕ) : UpState :=
  let d := downPass nodes pcs types
  upAux nodes
    ⟨d.sizes, List.replicate nodes.length none,
     List.replicate nodes.length (List.replicate types.length false)⟩
    nodes.length

/-- The literal reading of source line 162,
`active_variables[i] = std::vector<bool>(0, num_features)`: a vector of count
0 filled with the value `bool(num_features)` — the count and value arguments
are transposed, so every row is empty. -/
def initActiveVars (num_features : ℕ) : List Bool :=
  List.replicate 0 (decide (num_features ≠ 0))

/-- The guard of the bottom-up loop at source line 169, `node_index >= 0`,
where `node_index` has the unsigned type `index_t`: an unsigned value is
always `>= 0`. -/
def upLoopGuard (node_index : ℕ) : Bool := decide (node_index ≥ 0)

/-- One decrement of the 32-bit unsigned loop variable: `--node_index` wraps
around at zero. -/
def decStep (node_index : ℕ) : ℕ := (node_index + (2 ^ 32 - 1)) % 2 ^ 32

/-- Iterated decrement of the unsigned loop variable. -/
def decIter : ℕ → ℕ → ℕ
  | 0, x => x
  | Nat.succ k, x => decIter k (decStep x)

/-- Modelled from the spec: `rfr::util::get_non_NAN_indices` — the indices of
the feature-vector entries that are fixed (not NaN). -/
def get_non_NAN_indices (fv : List (Option ℚ)) : List ℕ :=
  (List.range fv.length).filter (fun i => (fv.getD i none).isSome)

/-- Modelled from the spec: `rfr::util::any_true` — whether any of the given
feature indices has its bit set, i.e. whether the active-variable set meets
the fixed-feature set. -/
def any_true (bits : List Bool) (idxs : List ℕ) : Bool :=
  idxs.any (fun i => bits.getD i false)

/-- Modelled from the spec: `rfr::util::weighted_running_statistics` — a
weighted accumulator; pushing a NaN value poisons the sum, and the mean of an
empty accumulator is the NaN sentinel (0/0). -/
structure WStats where
  sumW : ℚ
  sumWX : Option ℚ

/-- Push a weighted value onto the accumulator. -/
def WStats.push (st : WStats) (v : Option ℚ) (w : ℚ) : WStats :=
  ⟨st.sumW + w,
   match st.sumWX, v with
   | some a, some x => some (a + x * w)
   | _, _ => none⟩

/-- The weighted mean held by the accumulator; the sentinel when no weight has
been accumulated. -/
def WStats.mean (st : WStats) : Option ℚ :=
  if st.sumW = 0 then none else st.sumWX.map (fun x => x / st.sumW)

/-- The work-list loop of `marginalized_mean_prediction` (source lines
98-117), with the back of the deque as the list head. Faithful to the source:
the branch for a subtree that splits on an active (fixed) variable — source
lines 109-112 — contains only the comments describing cases 2.a and 2.b and
pushes nothing, so no node is ever descended into. -/
def queryLoop (ann : UpState) (af : List ℕ) : List ℕ → WStats → WStats
  | [], st => st
  | i :: rest, st =>
    if ann.sizes.getD i 0 = 0 then queryLoop ann af rest st
    else if any_true (ann.actives.getD i []) af then
      queryLoop ann af rest st
    else
      queryLoop ann af rest (st.push (ann.preds.getD i none) (ann.sizes.getD i 0))

/-- The query `marginalized_mean_prediction(feature_vector)` (source lines 89-119):
start from the root, run the work list to exhaustion, return the accumulator's
mean. -/
def marginalized_mean_prediction (ann : UpState) (fv : List (Option ℚ)) : Option ℚ :=
  (queryLoop ann (get_non_NAN_indices fv) [0] ⟨0, some 0⟩).mean

/-- Modelled from the spec: the plain tree prediction of a feature vector,
obtained by descending the splits from the root, evaluating each internal
node's routing rule on the fixed value (sections 4.3 and 8 of the design).
The fuel argument bounds the descent by the node count; `none` if a needed
feature is NaN or the descent is ill-formed. -/
def plainDescend (nodes : List Node) (fv : List (Option ℚ)) : ℕ → ℕ → Option ℚ
  | 0, _ => none
  | Nat.succ fuel, i =>
    match nodes.get? i with
    | none => none
    | some (Node.leaf m _) => some m
    | some (Node.internal s c0 c1 _) =>
      match fv.getD s.feature none with
      | none => none
      | some v => plainDescend nodes fv fuel (if s.route v then c0 else c1)

/-- Modelled from the spec: the plain tree prediction, starting at the root. -/
def plain_tree_prediction (nodes : List Node) (fv : List (Option ℚ)) : Option ℚ :=
  plainDescend nodes fv nodes.length 0

/-- The full category range `0..k-1` as rational values, used to seed a
categorical feature's catalog entry (source lines 240-243). -/
def rangeListQ (k : ℕ) : List ℚ := (List.range k).map Nat.cast

/-- One node's step of `all_split_values` (source lines 233-247): leaves are
skipped; a categorical feature whose catalog entry is still empty is seeded
with the full category range `0..k-1`; otherwise — including a categorical
feature already seeded — the node's `get_num_split_value()` is appended. -/
def svStep (types : List ℕ) (sv : List (List ℚ)) (nd : Node) : List (List ℚ) :=
  match nd with
  | Node.leaf _ _ => sv
  | Node.internal s _ _ _ =>
    if 0 < types.getD s.feature 0 ∧ (sv.getD s.feature []).length = 0 then
      sv.set s.feature (rangeListQ (types.getD s.feature 0))
    else
      sv.set s.feature (sv.getD s.feature [] ++ [s.get_num_split_value])

/-- The catalog `all_split_values(types)` (source lines 227-253) with the memoization
state passed explicitly: if the cached `split_values` member is nonempty it is
returned unchanged; otherwise every node is scanned and each per-feature entry
is sorted ascending. -/
def all_split_values (split_values : List (List ℚ)) (nodes : List Node)
    (types : List ℕ) : List (List ℚ) :=
  if split_values.length = 0 then
    (nodes.foldl (svStep types) (List.replicate types.length [])).map
      (List.insertionSort (fun a b => a ≤ b))
  else split_values

/-- Well-formedness of one node of the array, checked at index `j`: children
have larger indices and are in bounds, the split feature is in range, the
parent index is smaller (the root points to itself), the parent is an internal
node, and both children's stored parent index points back to `j`. These are
the structural facts the source relies on (section 3 of the design:
"children have a larger index than their parent"). -/
def nodeOK (nodes : List Node) (nf : ℕ) (j : ℕ) : Bool :=
  match nodes.get? j with
  | some (Node.internal s c0 c1 p) =>
      decide (j < c0) && decide (j < c1) &&
      decide (c0 < nodes.length) && decide (c1 < nodes.length) &&
      decide (s.feature < nf) &&
      (decide (p < j) || (decide (j = 0) && decide (p = 0))) &&
      (match nodes.get? p with
       | some (Node.internal _ _ _ _) => true
       | _ => false) &&
      (match nodes.get? c0 with
       | some nd => decide (nd.parent = j)
       | none => false) &&
      (match nodes.get? c1 with
       | some nd => decide (nd.parent = j)
       | none => false)
  | _ => true

/-- Well-formedness of the whole node array for `nf` features. -/
def WFb (nodes : List Node) (nf : ℕ) : Bool :=
  (List.range nodes.length).all (nodeOK nodes nf)

/-- The depth-1 scenario tree of section 8 of the design: the root splits
feature 0 at 1/2; the left leaf (index 1) has mean 1, the right leaf (index 2)
has mean 3. -/
def split_half : Split := ⟨0, SplitRule.cont (1 / 2)⟩

/-- Nodes of the scenario tree. -/
def nodes2 : List Node :=
  [Node.internal split_half 1 2 0, Node.leaf 1 0, Node.leaf 3 0]

/-- One continuous feature on `[0, 1]`. -/
def pcs2 : Domain := [[0, 1]]

/-- One continuous feature. -/
def types2 : List ℕ := [0]

/-- A second split on feature 0, at 1/4, for the depth-2 tree. -/
def split_quarter : Split := ⟨0, SplitRule.cont (1 / 4)⟩

/-- A depth-2 tree: the root splits feature 0 at 1/2; its left child (index 1)
splits feature 0 again at 1/4 into leaves 3 and 4; index 2 is the right leaf. -/
def nodes5 : List Node :=
  [Node.internal split_half 1 2 0, Node.internal split_quarter 3 4 0,
   Node.leaf 0 0, Node.leaf 0 1, Node.leaf 0 1]

/-- Two continuous features on `[0, 1]` each (the scenario tree splits only
feature 0, so feature 1 is inactive everywhere). -/
def pcs8 : Domain := [[0, 1], [0, 1]]

/-- Two continuous features. -/
def types8 : List ℕ := [0, 0]

/-- A single-leaf tree with mean 5. -/
def nodes3c : List Node := [Node.leaf 5 0]

/-- One continuous feature whose interval `[0, 0]` has zero length. -/
def pcs3c : Domain := [[0, 0]]

/-- A categorical split on feature 0 routing category 0 left, with
`get_num_split_value()` payload 7. -/
def catSplitA : Split := ⟨0, SplitRule.cat [0] 7⟩

/-- A second categorical split on feature 0 routing category 1 left, with
`get_num_split_value()` payload 7. -/
def catSplitB : Split := ⟨0, SplitRule.cat [1] 7⟩

/-- A tree with two internal nodes both splitting the categorical feature 0. -/
def nodes9 : List Node :=
  [Node.internal catSplitA 1 2 0, Node.internal catSplitB 3 4 0,
   Node.leaf 0 0, Node.leaf 0 1, Node.leaf 0 1]

/-- One categorical feature with 2 categories. -/
def types9 : List ℕ := [2]

/-- The internal nodes of the tree splitting on feature `f`, in index order —
the direct scan against which the split-value catalog is compared. -/
def splitsOn (nodes : List Node) (f : ℕ) : List Split :=
  nodes.filterMap (fun nd =>
    match nd with
    | Node.internal s _ _ _ => if s.feature = f then some s else none
    | Node.leaf _ _ => none)

/-- The projection of one `svStep` onto the catalog entry of feature `f`:
how that single entry evolves while the nodes are scanned. -/
def perFeatStep (types : List ℕ) (f : ℕ) (acc : List ℚ) (nd : Node) : List ℚ :=
  match nd with
  | Node.leaf _ _ => acc
  | Node.internal s _ _ _ =>
    if s.feature = f then
      (if 0 < types.getD f 0 ∧ acc.length = 0 then
        rangeListQ (types.getD f 0)
      else acc ++ [s.get_num_split_value])
    else acc

/-- Shape invariant of the bottom-up pass state: the three annotation arrays
are parallel to the node array and every active-variable row has `nf` bits. -/
def GoodSt (nodes : List Node) (nf : ℕ) (st : UpState) : Prop :=
  st.sizes.length = nodes.length ∧ st.preds.length = nodes.length ∧
  st.actives.length = nodes.length ∧
  ∀ m, m < nodes.length → (st.actives.getD m []).length = nf

/-- Invariant that every leaf's active-variable row is still all-clear. -/
def LeafClean (nodes : List Node) (nf : ℕ) (st : UpState) : Prop :=
  ∀ l mu q, nodes.get? l = some (Node.leaf mu q) →
    st.actives.getD l [] = List.replicate nf false

/-- Full evaluation of the annotation pass on the scenario tree, for any
cutoffs (the source never reads them): sizes `[1, 1/2, 1/2]`, marginal
predictions `[2, 1, 3]`, and only the root has an active variable. -/
theorem precompute_nodes2_eval (lc uc : ℚ) :
    precompute_marginals nodes2 lc uc pcs2 types2 =
      ⟨[1, 1 / 2, 1 / 2], [some 2, some 1, some 3], [[true], [false], [false]]⟩ := by
  norm_num [precompute_marginals, downPass, downStep, upAux, procNode, contribSize,
    contribPred, childSum, predVal, activesUpd, orBits, subspace_cardinality, featMeasure, Split.compute_subspaces,
    nodes2, pcs2, types2, split_half, List.range_succ, List.replicate, List.set]

/-- Evaluation of the annotation pass on the scenario tree over two features;
feature 1 is never split on, so its bit stays clear everywhere. -/
theorem precompute_nodes2_pcs8_eval (lc uc : ℚ) :
    precompute_marginals nodes2 lc uc pcs8 types8 =
      ⟨[1, 1 / 2, 1 / 2], [some 2, some 1, some 3],
       [[true, false], [false, false], [false, false]]⟩ := by
  norm_num [precompute_marginals, downPass, downStep, upAux, procNode, contribSize,
    contribPred, childSum, predVal, activesUpd, orBits, subspace_cardinality, featMeasure, Split.compute_subspaces,
    nodes2, pcs8, types8, split_half, List.range_succ, List.replicate, List.set]

/-- Evaluation of the annotation pass on the single-leaf tree over the
zero-length interval: the root's size is 0 but its marginal prediction is the
leaf mean 5. -/
theorem precompute_nodes3c_eval (lc uc : ℚ) :
    precompute_marginals nodes3c lc uc pcs3c types2 = ⟨[0], [some 5], [[false]]⟩ := by
  norm_num [precompute_marginals, downPass, downStep, upAux, procNode, contribSize,
    contribPred, childSum, predVal, activesUpd, orBits, subspace_cardinality, featMeasure, Split.compute_subspaces,
    nodes3c, pcs3c, types2, List.range_succ, List.replicate, List.set]

/-- Evaluation of the source's top-down pass on the depth-2 tree: node 4 gets
raw volume 3/4, because its domain is a split of the full `pcs`. -/
theorem downPass5_eval :
    downPass nodes5 pcs2 types2 =
      ⟨[1, 1 / 2, 1 / 2, 1 / 4, 3 / 4], [[], [], [], [], []]⟩ := by
  norm_num [downPass, downStep, subspace_cardinality, featMeasure, Split.compute_subspaces,
    nodes5, pcs2, types2, split_half, split_quarter, List.range_succ, List.replicate, List.set]

/-- Evaluation of the spec-side propagator on the depth-2 tree: node 4's
path-restricted domain is `[1/4, 1/2]`, of volume 1/4. -/
theorem propagate_spec5_eval :
    propagate_spec nodes5 pcs2 types2 = [1, 1 / 2, 1 / 2, 1 / 4, 1 / 4] := by
  norm_num [propagate_spec, downStepSpec, subspace_cardinality, featMeasure,
    Split.compute_subspaces, nodes5, pcs2, types2, split_half, split_quarter,
    List.range_succ, List.replicate, List.set]

/-- C2. The no-marginalization identity fails on the code: on the scenario
tree with wide cutoffs and the fully specified vector `[1/5]` (no NaN entry,
no leaf excluded), the plain tree prediction is the left leaf's mean 1, but
`marginalized_mean_prediction` returns the NaN sentinel: the branch for a
subtree that splits on a fixed feature (source lines 109-112) has an empty
body, so the query never descends and never accumulates anything. -/
theorem C2_query_vs_plain :
    marginalized_mean_prediction
        (precompute_marginals nodes2 (-100) 100 pcs2 types2) [some (1 / 5)] = none ∧
    plain_tree_prediction nodes2 [some (1 / 5)] = some 1 := by
  constructor
  · rw [precompute_nodes2_eval]
    norm_num [marginalized_mean_prediction, queryLoop, get_non_NAN_indices, any_true,
      WStats.mean, WStats.push, List.range_succ]
  · norm_num [plain_tree_prediction, plainDescend, Split.route, nodes2, split_half]

/-- C4. Leaf cutoff filtering fails on the code: with cutoffs `[2, 4]` on the
scenario tree, the left leaf (index 1) has mean `1 < 2` and should get
effective subspace size 0, but the leaf cutoff check is an unimplemented TODO
(source line 171), so the leaf keeps its raw volume 1/2. -/
theorem C4_cutoff_ignored :
    nodes2.get? 1 = some (Node.leaf 1 0) ∧ (1 : ℚ) < 2 ∧
    (precompute_marginals nodes2 2 4 pcs2 types2).sizes.getD 1 0 = 1 / 2 := by
  refine ⟨rfl, by norm_num, ?_⟩
  rw [precompute_nodes2_eval]
  norm_num

/-- C5. The subspace-volume propagator fails on the code: in the depth-2 tree,
node 4 (reached by going left at 1/2 then right at 1/4) has path-restricted
domain `[1/4, 1/2]` of volume 1/4 — computed by the spec-side propagator — but
the source's down pass hands every child a split of the full domain `pcs`
(source line 157), giving node 4 the domain `[1/4, 1]` of volume 3/4. -/
theorem C5_full_domain_split :
    (downPass nodes5 pcs2 types2).sizes.getD 4 0 = 3 / 4 ∧
    (propagate_spec nodes5 pcs2 types2).getD 4 0 = 1 / 4 := by
  rw [downPass5_eval, propagate_spec5_eval]
  norm_num

/-- C6. The bottom-up loop cannot terminate: its guard `node_index >= 0` on an
unsigned index is identically true (and the loop decrements a variable `i`
that is not even in scope; reading the decrement as intended still wraps
around). Starting from the last index of the 3-node scenario tree, the guard
still holds after every number of iterations, and after `nodes2.length` steps
the index has wrapped around to `2^32 - 1`, far out of bounds. -/
theorem C6_loop_no_exit :
    (∀ k, upLoopGuard (decIter k (nodes2.length - 1)) = true) ∧
    decIter nodes2.length (nodes2.length - 1) = 2 ^ 32 - 1 ∧
    nodes2.length ≤ decIter nodes2.length (nodes2.length - 1) := by
  refine ⟨fun k => by simp [upLoopGuard], by decide, by decide⟩

/-- C8. The all-excluded query outcome fails on the code: on the scenario tree
over two features with cutoffs `[10, 20]`, every leaf (means 1 and 3) lies
outside the cutoffs, and the vector `[NaN, 0]` fixes only feature 1, which the
tree never splits on — so every reachable leaf is excluded and the claim
requires the sentinel. Because the leaf cutoff check is a TODO, no leaf was
ever excluded and the query returns the unfiltered marginal mean 2. -/
theorem C8_all_excluded_not_sentinel :
    (1 : ℚ) < 10 ∧ (3 : ℚ) < 10 ∧
    marginalized_mean_prediction
        (precompute_marginals nodes2 10 20 pcs8 types8) [none, some 0] = some 2 := by
  refine ⟨by norm_num, by norm_num, ?_⟩
  rw [precompute_nodes2_pcs8_eval]
  norm_num [marginalized_mean_prediction, queryLoop, get_non_NAN_indices, any_true,
    WStats.mean, WStats.push, List.range_succ]

/-- C10. The active-variable rows are initialised with the count and value
arguments transposed: for `num_features = 1` the row has 0 entries, not 1, so
the bottom-up write at feature index 0 is out of bounds. -/
theorem C10_active_init_empty :
    (initActiveVars 1).length ≠ 1 ∧ (initActiveVars 1).length = 0 := by
  decide

/-- C3 counterexample. On a single-leaf tree over a zero-length interval the
root's subspace size is 0 and the all-unknown query returns the sentinel, but
`marginal_prediction[root]` is the leaf mean 5, not the sentinel — refuting
the claim that both sides are the sentinel whenever the root size is 0. -/
theorem C3_counterexample :
    (precompute_marginals nodes3c 0 10 pcs3c types2).sizes.getD 0 0 = 0 ∧
    marginalized_mean_prediction
        (precompute_marginals nodes3c 0 10 pcs3c types2) (List.replicate 1 none) = none ∧
    (precompute_marginals nodes3c 0 10 pcs3c types2).preds.getD 0 none = some 5 := by
  rw [precompute_nodes3c_eval]
  norm_num [marginalized_mean_prediction, queryLoop, get_non_NAN_indices, any_true,
    WStats.mean, WStats.push, List.range_succ, List.replicate]

/-- C9 counterexample. With two internal nodes splitting the same categorical
feature (2 categories), the catalog entry is not the category range `[0, 1]`:
the second node appends its `get_num_split_value()` payload, giving
`[0, 1, 7]`. -/
theorem C9_counterexample :
    (all_split_values [] nodes9 types9).getD 0 [] ≠ [(0 : ℚ), 1] := by
  decide

/-- Reading a list at the position just written, inside the bounds, gives the
written value. -/
theorem getD_set_self {α : Type} (l : List α) (i : ℕ) (x d : α) (h : i < l.length) :
    (l.set i x).getD i d = x := by
  induction l generalizing i with
  | nil => simp at h
  | cons a t ih =>
    cases i with
    | zero => rfl
    | succ n => simpa using ih n (by simpa using h)

/-- Reading a list at a position other than the one written is unchanged. -/
theorem getD_set_ne {α : Type} (l : List α) (i j : ℕ) (x d : α) (h : i ≠ j) :
    (l.set i x).getD j d = l.getD j d := by
  induction l generalizing i j with
  | nil => simp
  | cons a t ih =>
    cases i with
    | zero =>
      cases j with
      | zero => exact absurd rfl h
      | succ m => simp
    | succ n =>
      cases j with
      | zero => simp
      | succ m => simpa using ih n m (fun hnm => h (by rw [hnm]))

/-- Reading a replicated list is the element inside the bounds, the default
outside. -/
theorem getD_replicate_if {α : Type} (n k : ℕ) (x d : α) :
    (List.replicate n x).getD k d = if k < n then x else d := by
  induction n generalizing k with
  | zero => simp
  | succ m ih =>
    cases k with
    | zero => simp
    | succ j => simpa [List.replicate_succ, Nat.succ_lt_succ_iff] using ih j

/-- Reading a bitwise OR of two equally long rows reads the OR of the bits. -/
theorem getD_orBits (u v : List Bool) (h : u.length = v.length) (k : ℕ) :
    (orBits u v).getD k false = (u.getD k false || v.getD k false) := by
  induction u generalizing v k with
  | nil =>
    cases v with
    | nil => simp [orBits]
    | cons b tv => simp at h
  | cons a t ih =>
    cases v with
    | nil => simp at h
    | cons b tv =>
      cases k with
      | zero => simp [orBits]
      | succ n => simpa [orBits] using ih tv (by simpa using h) n

/-- The length of a bitwise OR of two rows. -/
theorem length_orBits (u v : List Bool) : (orBits u v).length = min u.length v.length := by
  simp [orBits]

/-- Setting one bit to true never clears a bit that was already set. -/
theorem getD_set_true_of (l : List Bool) (i k : ℕ) (h : l.getD k false = true) :
    (l.set i true).getD k false = true := by
  induction l generalizing i k with
  | nil => simp at h
  | cons a t ih =>
    cases i with
    | zero =>
      cases k with
      | zero => rfl
      | succ m => simpa using h
    | succ n =>
      cases k with
      | zero => simpa using h
      | succ m => simpa using ih n m (by simpa using h)

/-- Two lists that agree at an index under `get?` agree under `getD`. -/
theorem getD_congr_get? {α : Type} (l1 l2 : List α) (i : ℕ) (d : α)
    (h : l1.get? i = l2.get? i) : l1.getD i d = l2.getD i d := by
  rw [List.getD_eq_getD_get?, List.getD_eq_getD_get?, h]

/-- A well-formed node array is well-formed at each index. -/
theorem wf_node (nodes : List Node) (nf : ℕ) (j : ℕ) (hwf : WFb nodes nf = true)
    (hj : j < nodes.length) : nodeOK nodes nf j = true :=
  List.all_eq_true.mp hwf j (List.mem_range.mpr hj)

/-- An index holding `some` node is inside the array. -/
theorem get?_lt_length (nodes : List Node) (j : ℕ) (nd : Node)
    (hj : nodes.get? j = some nd) : j < nodes.length := by
  rcases List.get?_eq_some.mp hj with ⟨h, -⟩
  exact h

/-- The structural facts `WFb` guarantees at an internal node: children are
behind the node and inside the array, the split feature is in range, the
parent is in front (the root points to itself), the parent is internal, and
both children point back to the node. -/
theorem wf_internal (nodes : List Node) (nf : ℕ) (j : ℕ) (s : Split) (c0 c1 p : ℕ)
    (hwf : WFb nodes nf = true) (hj : nodes.get? j = some (Node.internal s c0 c1 p)) :
    j < c0 ∧ j < c1 ∧ c0 < nodes.length ∧ c1 < nodes.length ∧ s.feature < nf ∧
      (p < j ∨ (j = 0 ∧ p = 0)) ∧
      (∃ s2 d0 d1 q, nodes.get? p = some (Node.internal s2 d0 d1 q)) ∧
      (∃ nd0, nodes.get? c0 = some nd0 ∧ nd0.parent = j) ∧
      (∃ nd1, nodes.get? c1 = some nd1 ∧ nd1.parent = j) := by
  have hok := wf_node nodes nf j hwf (get?_lt_length nodes j _ hj)
  simp only [nodeOK, hj, Bool.and_eq_true, Bool.or_eq_true, decide_eq_true_eq] at hok
  obtain ⟨⟨⟨⟨⟨⟨⟨⟨h1, h2⟩, h3⟩, h4⟩, h5⟩, h6⟩, h7⟩, h8⟩, h9⟩ := hok
  refine ⟨h1, h2, h3, h4, h5, h6, ?_, ?_, ?_⟩
  · cases hgp : nodes.get? p with
    | none => rw [hgp] at h7; exact Bool.noConfusion h7
    | some nd =>
      cases nd with
      | leaf mu q => rw [hgp] at h7; exact Bool.noConfusion h7
      | internal s2 d0 d1 q => exact ⟨s2, d0, d1, q, rfl⟩
  · cases hg0 : nodes.get? c0 with
    | none => rw [hg0] at h8; exact Bool.noConfusion h8
    | some nd0 =>
      rw [hg0] at h8
      exact ⟨nd0, rfl, of_decide_eq_true h8⟩
  · cases hg1 : nodes.get? c1 with
    | none => rw [hg1] at h9; exact Bool.noConfusion h9
    | some nd1 =>
      rw [hg1] at h9
      exact ⟨nd1, rfl, of_decide_eq_true h9⟩

/-- An index without a node leaves the bottom-up state alone. -/
theorem procNode_none (nodes : List Node) (st : UpState) (j : ℕ)
    (h : nodes.get? j = none) : procNode nodes st j = st := by
  unfold procNode
  rw [h]

/-- The bottom-up step at a leaf. -/
theorem procNode_leaf (nodes : List Node) (st : UpState) (j : ℕ) (mu : ℚ) (q : ℕ)
    (h : nodes.get? j = some (Node.leaf mu q)) :
    procNode nodes st j = ⟨st.sizes, st.preds.set j (some mu), st.actives⟩ := by
  unfold procNode
  rw [h]

/-- The bottom-up step at an internal node. -/
theorem procNode_internal (nodes : List Node) (st : UpState) (j : ℕ) (s : Split)
    (c0 c1 p : ℕ) (h : nodes.get? j = some (Node.internal s c0 c1 p)) :
    procNode nodes st j =
      ⟨st.sizes.set j (childSum st.sizes c0 c1),
       st.preds.set j (predVal st.sizes st.preds c0 c1),
       activesUpd st.actives j s.feature p⟩ := by
  unfold procNode
  rw [h]

/-- One bottom-up step does not touch the sizes of other indices. -/
theorem procNode_sizes_get? (nodes : List Node) (st : UpState) (j m : ℕ) (h : m ≠ j) :
    (procNode nodes st j).sizes.get? m = st.sizes.get? m := by
  cases hg : nodes.get? j with
  | none => rw [procNode_none nodes st j hg]
  | some nd =>
    cases nd with
    | leaf mu q => rw [procNode_leaf nodes st j mu q hg]
    | internal s c0 c1 p =>
      rw [procNode_internal nodes st j s c0 c1 p hg]
      exact List.get?_set_ne _ _ (Ne.symm h)

/-- One bottom-up step does not touch the predictions of other indices. -/
theorem procNode_preds_get? (nodes : List Node) (st : UpState) (j m : ℕ) (h : m ≠ j) :
    (procNode nodes st j).preds.get? m = st.preds.get? m := by
  cases hg : nodes.get? j with
  | none => rw [procNode_none nodes st j hg]
  | some nd =>
    cases nd with
    | leaf mu q =>
      rw [procNode_leaf nodes st j mu q hg]
      exact List.get?_set_ne _ _ (Ne.symm h)
    | internal s c0 c1 p =>
      rw [procNode_internal nodes st j s c0 c1 p hg]
      exact List.get?_set_ne _ _ (Ne.symm h)

/-- One bottom-up step touches only the active rows of the node itself and of
its parent. -/
theorem procNode_actives_get? (nodes : List Node) (st : UpState) (j m : ℕ) (hmj : m ≠ j)
    (hp : ∀ s c0 c1 p, nodes.get? j = some (Node.internal s c0 c1 p) → m ≠ p) :
    (procNode nodes st j).actives.get? m = st.actives.get? m := by
  cases hg : nodes.get? j with
  | none => rw [procNode_none nodes st j hg]
  | some nd =>
    cases nd with
    | leaf mu q => rw [procNode_leaf nodes st j mu q hg]
    | internal s c0 c1 p =>
      rw [procNode_internal nodes st j s c0 c1 p hg]
      show (activesUpd st.actives j s.feature p).get? m = st.actives.get? m
      unfold activesUpd
      rw [List.get?_set_ne _ _ (Ne.symm (hp s c0 c1 p hg)),
        List.get?_set_ne _ _ (Ne.symm hmj)]

/-- One bottom-up step preserves the length of the sizes array. -/
theorem procNode_sizes_length (nodes : List Node) (st : UpState) (j : ℕ) :
    (procNode nodes st j).sizes.length = st.sizes.length := by
  cases hg : nodes.get? j with
  | none => rw [procNode_none nodes st j hg]
  | some nd =>
    cases nd with
    | leaf mu q => rw [procNode_leaf nodes st j mu q hg]
    | internal s c0 c1 p =>
      rw [procNode_internal nodes st j s c0 c1 p hg]
      exact List.length_set st.sizes j _

/-- One bottom-up step preserves the length of the predictions array. -/
theorem procNode_preds_length (nodes : List Node) (st : UpState) (j : ℕ) :
    (procNode nodes st j).preds.length = st.preds.length := by
  cases hg : nodes.get? j with
  | none => rw [procNode_none nodes st j hg]
  | some nd =>
    cases nd with
    | leaf mu q =>
      rw [procNode_leaf nodes st j mu q hg]
      exact List.length_set st.preds j _
    | internal s c0 c1 p =>
      rw [procNode_internal nodes st j s c0 c1 p hg]
      exact List.length_set st.preds j _

/-- Reading the active-row update anywhere but at the node or its parent. -/
theorem activesUpd_getD_other (ac : List (List Bool)) (j fe p m : ℕ)
    (h1 : m ≠ j) (h2 : m ≠ p) :
    (activesUpd ac j fe p).getD m [] = ac.getD m [] := by
  unfold activesUpd
  rw [getD_set_ne _ p m _ _ (Ne.symm h2), getD_set_ne _ j m _ _ (Ne.symm h1)]

/-- Reading the active-row update at the node itself, when the parent write is
elsewhere. -/
theorem activesUpd_getD_self (ac : List (List Bool)) (j fe p : ℕ)
    (hne : p ≠ j) (hj : j < ac.length) :
    (activesUpd ac j fe p).getD j [] = (ac.getD j []).set fe true := by
  unfold activesUpd
  rw [getD_set_ne _ p j _ _ hne, getD_set_self _ j _ _ hj]

/-- Reading the active-row update at the parent position. -/
theorem activesUpd_getD_parent (ac : List (List Bool)) (j fe p : ℕ)
    (hp : p < ac.length) (hj : j < ac.length) :
    (activesUpd ac j fe p).getD p [] =
      orBits ((ac.set j ((ac.getD j []).set fe true)).getD j [])
             ((ac.set j ((ac.getD j []).set fe true)).getD p []) := by
  unfold activesUpd
  exact getD_set_self _ p _ _ (by simpa using hp)

/-- The descending scan does not touch the sizes of indices it never reaches. -/
theorem upAux_sizes_get? (nodes : List Node) :
    ∀ (N : ℕ) (st : UpState) (m : ℕ), N ≤ m →
      (upAux nodes st N).sizes.get? m = st.sizes.get? m := by
  intro N
  induction N with
  | zero => intro st m _; rfl
  | succ N ih =>
    intro st m hm
    simp only [upAux]
    rw [ih (procNode nodes st N) m (Nat.le_of_succ_le hm)]
    exact procNode_sizes_get? nodes st N m (by omega)

/-- The descending scan does not touch the predictions of indices it never
reaches. -/
theorem upAux_preds_get? (nodes : List Node) :
    ∀ (N : ℕ) (st : UpState) (m : ℕ), N ≤ m →
      (upAux nodes st N).preds.get? m = st.preds.get? m := by
  intro N
  induction N with
  | zero => intro st m _; rfl
  | succ N ih =>
    intro st m hm
    simp only [upAux]
    rw [ih (procNode nodes st N) m (Nat.le_of_succ_le hm)]
    exact procNode_preds_get? nodes st N m (by omega)

/-- On a well-formed tree, the descending scan does not touch the active rows
of indices it never reaches: every write goes to a processed index or to its
parent, which lies even lower. -/
theorem upAux_actives_get? (nodes : List Node) (nf : ℕ) (hwf : WFb nodes nf = true) :
    ∀ (N : ℕ) (st : UpState) (m : ℕ), N ≤ m →
      (upAux nodes st N).actives.get? m = st.actives.get? m := by
  intro N
  induction N with
  | zero => intro st m _; rfl
  | succ N ih =>
    intro st m hm
    simp only [upAux]
    rw [ih (procNode nodes st N) m (Nat.le_of_succ_le hm)]
    refine procNode_actives_get? nodes st N m (by omega) ?_
    intro s c0 c1 p hN
    rcases wf_internal nodes nf N s c0 c1 p hwf hN with ⟨-, -, -, -, -, hp, -, -, -⟩
    rcases hp with hp | ⟨hN0, hp0⟩ <;> omega

/-- The length of the sizes array is invariant under the descending scan. -/
theorem upAux_sizes_length (nodes : List Node) :
    ∀ (N : ℕ) (st : UpState), (upAux nodes st N).sizes.length = st.sizes.length := by
  intro N
  induction N with
  | zero => intro st; rfl
  | succ N ih =>
    intro st
    simp only [upAux]
    rw [ih, procNode_sizes_length]

/-- One bottom-up step preserves the shape invariant. -/
theorem procNode_good (nodes : List Node) (nf : ℕ) (st : UpState) (j : ℕ)
    (hwf : WFb nodes nf = true) (hg : GoodSt nodes nf st) :
    GoodSt nodes nf (procNode nodes st j) := by
  obtain ⟨hs, hpd, hac, hrow⟩ := hg
  cases hgj : nodes.get? j with
  | none => rw [procNode_none nodes st j hgj]; exact ⟨hs, hpd, hac, hrow⟩
  | some nd =>
    cases nd with
    | leaf mu q =>
      rw [procNode_leaf nodes st j mu q hgj]
      exact ⟨hs, by simpa using hpd, hac, hrow⟩
    | internal s c0 c1 p =>
      have hjl : j < nodes.length := get?_lt_length nodes j _ hgj
      rcases wf_internal nodes nf j s c0 c1 p hwf hgj with ⟨-, -, -, -, hfe, hpj, -, -, -⟩
      have hpl : p < nodes.length := by rcases hpj with h | ⟨h1, h2⟩ <;> omega
      rw [procNode_internal nodes st j s c0 c1 p hgj]
      refine ⟨by simpa using hs, by simpa using hpd, ?_, ?_⟩
      · show (activesUpd st.actives j s.feature p).length = nodes.length
        unfold activesUpd
        simpa using hac
      · intro m hm
        show ((activesUpd st.actives j s.feature p).getD m []).length = nf
        by_cases hm1 : m = p
        · subst hm1
          rw [activesUpd_getD_parent st.actives j s.feature m (by omega) (by omega)]
          rw [length_orBits]
          by_cases hm2 : m = j
          · subst hm2
            rw [getD_set_self st.actives m _ [] (by omega)]
            have he : ((st.actives.getD m []).set s.feature true).length = nf := by
              rw [List.length_set]
              exact hrow m hm
            rw [he, Nat.min_self]
          · rw [getD_set_self st.actives j _ [] (by omega),
              getD_set_ne st.actives j m _ [] (fun hh => hm2 hh.symm)]
            have he : ((st.actives.getD j []).set s.feature true).length = nf := by
              rw [List.length_set]
              exact hrow j (by omega)
            rw [he, hrow m hm, Nat.min_self]
        · by_cases hm2 : m = j
          · subst hm2
            rw [activesUpd_getD_self st.actives m s.feature p (fun hh => hm1 hh.symm) (by omega)]
            rw [List.length_set]
            exact hrow m hm
          · rw [activesUpd_getD_other st.actives j s.feature p m hm2 hm1]
            exact hrow m hm

/-- The descending scan preserves the shape invariant. -/
theorem upAux_good (nodes : List Node) (nf : ℕ) (hwf : WFb nodes nf = true) :
    ∀ (N : ℕ) (st : UpState), GoodSt nodes nf st → GoodSt nodes nf (upAux nodes st N) := by
  intro N
  induction N with
  | zero => intro st hg; exact hg
  | succ N ih =>
    intro st hg
    simp only [upAux]
    exact ih (procNode nodes st N) (procNode_good nodes nf st N hwf hg)

/-- One bottom-up step never clears an active bit. -/
theorem procNode_bit_mono (nodes : List Node) (nf : ℕ) (st : UpState) (j m k : ℕ)
    (hwf : WFb nodes nf = true) (hg : GoodSt nodes nf st)
    (h : (st.actives.getD m []).getD k false = true) :
    ((procNode nodes st j).actives.getD m []).getD k false = true := by
  obtain ⟨hs, hpd, hac, hrow⟩ := hg
  cases hgj : nodes.get? j with
  | none => rw [procNode_none nodes st j hgj]; exact h
  | some nd =>
    cases nd with
    | leaf mu q => rw [procNode_leaf nodes st j mu q hgj]; exact h
    | internal s c0 c1 p =>
      have hjl : j < nodes.length := get?_lt_length nodes j _ hgj
      rcases wf_internal nodes nf j s c0 c1 p hwf hgj with ⟨-, -, -, -, hfe, hpj, -, -, -⟩
      have hpl : p < nodes.length := by rcases hpj with hh | ⟨h1, h2⟩ <;> omega
      rw [procNode_internal nodes st j s c0 c1 p hgj]
      show ((activesUpd st.actives j s.feature p).getD m []).getD k false = true
      by_cases hm1 : m = p
      · subst hm1
        rw [activesUpd_getD_parent st.actives j s.feature m (by omega) (by omega)]
        by_cases hm2 : m = j
        · subst hm2
          rw [getD_set_self st.actives m _ [] (by omega)]
          rw [getD_orBits _ _ rfl k]
          rw [getD_set_true_of _ _ _ h]
          simp
        · rw [getD_set_self st.actives j _ [] (by omega),
            getD_set_ne st.actives j m _ [] (fun hh => hm2 hh.symm)]
          rw [getD_orBits _ _ (by
            rw [List.length_set, hrow j (by omega), hrow m (by omega)]) k]
          rw [h]
          simp
      · by_cases hm2 : m = j
        · subst hm2
          rw [activesUpd_getD_self st.actives m s.feature p (fun hh => hm1 hh.symm) (by omega)]
          exact getD_set_true_of _ _ _ h
        · rw [activesUpd_getD_other st.actives j s.feature p m hm2 hm1]
          exact h

/-- The descending scan never clears an active bit. -/
theorem upAux_bit_mono (nodes : List Node) (nf : ℕ) (hwf : WFb nodes nf = true) :
    ∀ (N : ℕ) (st : UpState), GoodSt nodes nf st → ∀ m k,
      (st.actives.getD m []).getD k false = true →
      ((upAux nodes st N).actives.getD m []).getD k false = true := by
  intro N
  induction N with
  | zero => intro st _ m k h; exact h
  | succ N ih =>
    intro st hg m k h
    simp only [upAux]
    exact ih (procNode nodes st N) (procNode_good nodes nf st N hwf hg) m k
      (procNode_bit_mono nodes nf st N m k hwf hg h)

/-- After the whole descending scan, an internal node's stored subspace size
is exactly the sum of its children's final stored sizes, taken over the
children whose final size is positive. -/
theorem upAux_conservation (nodes : List Node) (nf : ℕ) (hwf : WFb nodes nf = true)
    (j : ℕ) (s : Split) (c0 c1 p : ℕ)
    (hj : nodes.get? j = some (Node.internal s c0 c1 p)) :
    ∀ (N : ℕ) (st : UpState), j < N → st.sizes.length = nodes.length →
      (upAux nodes st N).sizes.getD j 0 =
        contribSize (upAux nodes st N).sizes c0 + contribSize (upAux nodes st N).sizes c1 := by
  intro N
  induction N with
  | zero => intro st h _; omega
  | succ N ih =>
    intro st hjN hlen
    rcases Nat.lt_or_ge j N with hlt | hge
    · simp only [upAux]
      exact ih (procNode nodes st N) hlt (by rw [procNode_sizes_length]; exact hlen)
    · have hje : j = N := by omega
      subst hje
      simp only [upAux]
      rcases wf_internal nodes nf j s c0 c1 p hwf hj with
        ⟨hc0, hc1, hc0l, hc1l, -, -, -, -, -⟩
      have hjl : j < nodes.length := get?_lt_length nodes j _ hj
      have e1 : (upAux nodes (procNode nodes st j) j).sizes.get? j
          = (procNode nodes st j).sizes.get? j :=
        upAux_sizes_get? nodes j (procNode nodes st j) j le_rfl
      have e2 : (procNode nodes st j).sizes.getD j 0 = childSum st.sizes c0 c1 := by
        rw [procNode_internal nodes st j s c0 c1 p hj]
        exact getD_set_self _ _ _ _ (by omega)
      have e3 : ∀ c, j < c → (upAux nodes (procNode nodes st j) j).sizes.getD c 0
          = st.sizes.getD c 0 := by
        intro c hc
        refine getD_congr_get? _ _ c 0 ?_
        rw [upAux_sizes_get? nodes j (procNode nodes st j) c (Nat.le_of_lt hc)]
        exact procNode_sizes_get? nodes st j c (by omega)
      have e4 : (upAux nodes (procNode nodes st j) j).sizes.getD j 0
          = childSum st.sizes c0 c1 := by
        rw [getD_congr_get? _ _ j 0 e1, e2]
      rw [e4]
      unfold childSum contribSize
      rw [e3 c0 hc0, e3 c1 hc1]

/-- One iteration of the top-down pass preserves the length of the sizes
array. -/
theorem downStep_sizes_length (nodes : List Node) (pcs : Domain) (types : List ℕ)
    (st : DownState) (i : ℕ) :
    (downStep nodes pcs types st i).sizes.length = st.sizes.length := by
  cases h : nodes.get? i with
  | none => unfold downStep; rw [h]
  | some nd =>
    cases nd with
    | leaf mu q => unfold downStep; rw [h]; exact List.length_set st.sizes i _
    | internal s c0 c1 p => unfold downStep; rw [h]; exact List.length_set st.sizes i _

/-- Folding the top-down step over any index list preserves the length of the
sizes array. -/
theorem foldl_downStep_sizes_length (nodes : List Node) (pcs : Domain) (types : List ℕ) :
    ∀ (l : List ℕ) (st : DownState),
      (l.foldl (downStep nodes pcs types) st).sizes.length = st.sizes.length := by
  intro l
  induction l with
  | nil => intro st; rfl
  | cons a t ih =>
    intro st
    rw [List.foldl_cons, ih, downStep_sizes_length]

/-- The top-down pass produces one size per node. -/
theorem downPass_sizes_length (nodes : List Node) (pcs : Domain) (types : List ℕ) :
    (downPass nodes pcs types).sizes.length = nodes.length := by
  rw [downPass, foldl_downStep_sizes_length]
  simp

/-- C1. Weight conservation: after `precompute_marginals` on a well-formed
tree, every internal node's stored effective subspace size equals the sum of
its children's stored sizes, taken over exactly the children whose stored
size is strictly positive. This is the recurrence the bottom-up pass writes at
source lines 183-199 (with the `subspace_size`/`children_subspace_sizes` name
slips resolved, and the scan read as the intended descending visit that the
written loop fails to implement — see C6). -/
theorem C1_conservation (nodes : List Node) (lower_cutoff upper_cutoff : ℚ)
    (pcs : Domain) (types : List ℕ) (hwf : WFb nodes types.length = true)
    (j : ℕ) (s : Split) (c0 c1 p : ℕ)
    (hj : nodes.get? j = some (Node.internal s c0 c1 p)) :
    (precompute_marginals nodes lower_cutoff upper_cutoff pcs types).sizes.getD j 0 =
      (if 0 < (precompute_marginals nodes lower_cutoff upper_cutoff pcs types).sizes.getD c0 0
        then (precompute_marginals nodes lower_cutoff upper_cutoff pcs types).sizes.getD c0 0
        else 0) +
      (if 0 < (precompute_marginals nodes lower_cutoff upper_cutoff pcs types).sizes.getD c1 0
        then (precompute_marginals nodes lower_cutoff upper_cutoff pcs types).sizes.getD c1 0
        else 0) := by
  have hjl : j < nodes.length := get?_lt_length nodes j _ hj
  have h := upAux_conservation nodes types.length hwf j s c0 c1 p hj nodes.length
    ⟨(downPass nodes pcs types).sizes, List.replicate nodes.length none,
     List.replicate nodes.length (List.replicate types.length false)⟩ hjl
    (downPass_sizes_length nodes pcs types)
  simpa [precompute_marginals, contribSize] using h

/-- C1 witness: the conservation identity instantiated on the scenario tree at
its root, whose children are the two leaves. -/
theorem C1_conservation_witness :
    (precompute_marginals nodes2 0 1 pcs2 types2).sizes.getD 0 0 =
      (if 0 < (precompute_marginals nodes2 0 1 pcs2 types2).sizes.getD 1 0
        then (precompute_marginals nodes2 0 1 pcs2 types2).sizes.getD 1 0 else 0) +
      (if 0 < (precompute_marginals nodes2 0 1 pcs2 types2).sizes.getD 2 0
        then (precompute_marginals nodes2 0 1 pcs2 types2).sizes.getD 2 0 else 0) :=
  C1_conservation nodes2 0 1 pcs2 types2 (by decide) 0 split_half 1 2 0 rfl

/-- An all-unknown feature vector has no fixed features. -/
theorem af_replicate_none (m : ℕ) : get_non_NAN_indices (List.replicate m none) = [] := by
  unfold get_non_NAN_indices
  apply List.filter_eq_nil.mpr
  intro i hi
  rw [getD_replicate_if]
  split <;> simp

/-- On an all-unknown vector the query only ever examines the root: it either
skips it (zero size) or accumulates exactly its cached annotation. -/
theorem query_root_only (ann : UpState) (m : ℕ) :
    marginalized_mean_prediction ann (List.replicate m none) =
      (if ann.sizes.getD 0 0 = 0 then none
       else (WStats.push ⟨0, some 0⟩ (ann.preds.getD 0 none) (ann.sizes.getD 0 0)).mean) := by
  unfold marginalized_mean_prediction
  rw [af_replicate_none]
  by_cases h : ann.sizes.getD 0 0 = 0
  · rw [if_pos h]
    show (queryLoop ann [] [0] ⟨0, some 0⟩).mean = none
    unfold queryLoop
    rw [if_pos h]
    show WStats.mean ⟨0, some 0⟩ = none
    unfold WStats.mean
    rw [if_pos rfl]
  · rw [if_neg h]
    show (queryLoop ann [] [0] ⟨0, some 0⟩).mean = _
    unfold queryLoop
    rw [if_neg h]
    have hany : any_true (ann.actives.getD 0 []) [] = false := rfl
    rw [hany]
    rfl

/-- On an all-unknown vector, a positive root size makes the query return the
root's cached marginal prediction (also when that cached value is the
sentinel). -/
theorem query_all_unknown_pos (ann : UpState) (m : ℕ) (h : 0 < ann.sizes.getD 0 0) :
    marginalized_mean_prediction ann (List.replicate m none) = ann.preds.getD 0 none := by
  rw [query_root_only ann m, if_neg (by exact fun he => absurd (he ▸ h) (lt_irrefl 0))]
  cases hp : ann.preds.getD 0 none with
  | none =>
    show WStats.mean ⟨0 + ann.sizes.getD 0 0, none⟩ = none
    unfold WStats.mean
    split <;> rfl
  | some v =>
    have hw : ann.sizes.getD 0 0 ≠ 0 := ne_of_gt h
    show WStats.mean ⟨0 + ann.sizes.getD 0 0, some (0 + v * ann.sizes.getD 0 0)⟩ = some v
    unfold WStats.mean
    rw [if_neg (by rw [zero_add]; exact hw)]
    rw [zero_add, zero_add]
    show some (v * ann.sizes.getD 0 0 / ann.sizes.getD 0 0) = some v
    rw [mul_div_cancel_right₀ v hw]

/-- On an all-unknown vector, a zero root size makes the query return the
sentinel. -/
theorem query_all_unknown_zero (ann : UpState) (m : ℕ) (h : ann.sizes.getD 0 0 = 0) :
    marginalized_mean_prediction ann (List.replicate m none) = none := by
  rw [query_root_only ann m, if_pos h]

/-- If the scan reaches index 0 and the root is internal, a zero stored root
size forces the stored root prediction to be the sentinel: both are written in
the same iteration from the same `children_subspace_size`. -/
theorem upAux_root_pred_none (nodes : List Node) (s : Split) (c0 c1 p : ℕ)
    (hj : nodes.get? 0 = some (Node.internal s c0 c1 p)) :
    ∀ (N : ℕ) (st : UpState), 0 < N → st.sizes.length = nodes.length →
      st.preds.length = nodes.length →
      ((upAux nodes st N).sizes.getD 0 0 = 0 → (upAux nodes st N).preds.getD 0 none = none) := by
  intro N
  induction N with
  | zero => intro st h; omega
  | succ N ih =>
    intro st hpos hsl hpl
    rcases Nat.eq_zero_or_pos N with hN0 | hNpos
    · subst hN0
      intro hsz
      simp only [upAux] at hsz ⊢
      have h0l : 0 < nodes.length := get?_lt_length nodes 0 _ hj
      rw [procNode_internal nodes st 0 s c0 c1 p hj] at hsz ⊢
      rw [getD_set_self _ _ _ _ (by omega)] at hsz
      show (st.preds.set 0 (predVal st.sizes st.preds c0 c1)).getD 0 none = none
      rw [getD_set_self _ _ _ _ (by omega)]
      unfold predVal
      rw [if_neg (by rw [hsz]; exact lt_irrefl 0)]
    · intro hsz
      simp only [upAux] at hsz ⊢
      exact ih (procNode nodes st N) hNpos (by rw [procNode_sizes_length]; exact hsl)
        (by rw [procNode_preds_length]; exact hpl) hsz

/-- C3 (amended). Full-marginalization identity: after `precompute_marginals`,
querying an all-unknown vector returns `marginal_prediction[root]` whenever
`subspace_size[root] > 0`, and returns the NaN sentinel whenever
`subspace_size[root] = 0`; in the latter case `marginal_prediction[root]` is
itself the sentinel when the root is an internal node (a single-leaf root
keeps its leaf mean — see the counterexample). -/
theorem C3_full_marginalization (nodes : List Node) (lower_cutoff upper_cutoff : ℚ)
    (pcs : Domain) (types : List ℕ) (m : ℕ) :
    (0 < (precompute_marginals nodes lower_cutoff upper_cutoff pcs types).sizes.getD 0 0 →
      marginalized_mean_prediction
          (precompute_marginals nodes lower_cutoff upper_cutoff pcs types)
          (List.replicate m none) =
        (precompute_marginals nodes lower_cutoff upper_cutoff pcs types).preds.getD 0 none) ∧
    ((precompute_marginals nodes lower_cutoff upper_cutoff pcs types).sizes.getD 0 0 = 0 →
      marginalized_mean_prediction
          (precompute_marginals nodes lower_cutoff upper_cutoff pcs types)
          (List.replicate m none) = none) ∧
    (∀ s c0 c1 p, nodes.get? 0 = some (Node.internal s c0 c1 p) →
      (precompute_marginals nodes lower_cutoff upper_cutoff pcs types).sizes.getD 0 0 = 0 →
      (precompute_marginals nodes lower_cutoff upper_cutoff pcs types).preds.getD 0 none = none) := by
  refine ⟨query_all_unknown_pos _ m, query_all_unknown_zero _ m, ?_⟩
  intro s c0 c1 p hj hsz
  have h0l : 0 < nodes.length := get?_lt_length nodes 0 _ hj
  have h := upAux_root_pred_none nodes s c0 c1 p hj nodes.length
    ⟨(downPass nodes pcs types).sizes, List.replicate nodes.length none,
     List.replicate nodes.length (List.replicate types.length false)⟩ h0l
    (downPass_sizes_length nodes pcs types) (by simp)
  rw [precompute_marginals] at hsz ⊢
  exact h hsz

/-- C3 witness: the positive-size branch on the scenario tree, where the
all-unknown query returns the cached root prediction. -/
theorem C3_full_marginalization_witness :
    marginalized_mean_prediction (precompute_marginals nodes2 0 1 pcs2 types2)
        (List.replicate 3 none) =
      (precompute_marginals nodes2 0 1 pcs2 types2).preds.getD 0 none := by
  refine (C3_full_marginalization nodes2 0 1 pcs2 types2 3).1 ?_
  rw [precompute_nodes2_eval]
  norm_num

/-- One bottom-up step keeps every leaf's active row all-clear: active rows
are only written at an internal node and at its parent, and a well-formed
parent pointer of an internal node names an internal node. -/
theorem procNode_leafclean (nodes : List Node) (nf : ℕ) (st : UpState) (j : ℕ)
    (hwf : WFb nodes nf = true) (hlc : LeafClean nodes nf st) :
    LeafClean nodes nf (procNode nodes st j) := by
  intro l mu q hl
  cases hgj : nodes.get? j with
  | none => rw [procNode_none nodes st j hgj]; exact hlc l mu q hl
  | some nd =>
    cases nd with
    | leaf mu2 q2 => rw [procNode_leaf nodes st j mu2 q2 hgj]; exact hlc l mu q hl
    | internal s c0 c1 p =>
      rcases wf_internal nodes nf j s c0 c1 p hwf hgj with ⟨-, -, -, -, -, -, hpint, -, -⟩
      obtain ⟨s2, d0, d1, q2, hgp⟩ := hpint
      have hlj : l ≠ j := by
        intro he
        rw [he, hgj] at hl
        exact absurd hl (by simp)
      have hlp : l ≠ p := by
        intro he
        rw [he, hgp] at hl
        exact absurd hl (by simp)
      rw [procNode_internal nodes st j s c0 c1 p hgj]
      show (activesUpd st.actives j s.feature p).getD l [] = List.replicate nf false
      rw [activesUpd_getD_other st.actives j s.feature p l hlj hlp]
      exact hlc l mu q hl

/-- The descending scan keeps every leaf's active row all-clear. -/
theorem upAux_leafclean (nodes : List Node) (nf : ℕ) (hwf : WFb nodes nf = true) :
    ∀ (N : ℕ) (st : UpState), LeafClean nodes nf st → LeafClean nodes nf (upAux nodes st N) := by
  intro N
  induction N with
  | zero => intro st h; exact h
  | succ N ih =>
    intro st h
    simp only [upAux]
    exact ih (procNode nodes st N) (procNode_leafclean nodes nf st N hwf h)

/-- Once the scan has processed an internal node, its own split-feature bit is
set in its active row. -/
theorem upAux_ownbit (nodes : List Node) (nf : ℕ) (hwf : WFb nodes nf = true)
    (j : ℕ) (s : Split) (c0 c1 p : ℕ)
    (hj : nodes.get? j = some (Node.internal s c0 c1 p)) :
    ∀ (N : ℕ) (st : UpState), j < N → GoodSt nodes nf st →
      ((upAux nodes st N).actives.getD j []).getD s.feature false = true := by
  intro N
  induction N with
  | zero => intro st h _; omega
  | succ N ih =>
    intro st hjN hg
    rcases Nat.lt_or_ge j N with hlt | hge
    · simp only [upAux]
      exact ih (procNode nodes st N) hlt (procNode_good nodes nf st N hwf hg)
    · have hje : j = N := by omega
      subst hje
      simp only [upAux]
      apply upAux_bit_mono nodes nf hwf j (procNode nodes st j)
        (procNode_good nodes nf st j hwf hg)
      obtain ⟨hs, hpd, hac, hrow⟩ := hg
      have hjl : j < nodes.length := get?_lt_length nodes j _ hj
      rcases wf_internal nodes nf j s c0 c1 p hwf hj with ⟨-, -, -, -, hfe, hpj, -, -, -⟩
      have hpl : p < nodes.length := by rcases hpj with hh | ⟨h1, h2⟩ <;> omega
      rw [procNode_internal nodes st j s c0 c1 p hj]
      show ((activesUpd st.actives j s.feature p).getD j []).getD s.feature false = true
      by_cases hpje : p = j
      · subst hpje
        rw [activesUpd_getD_parent st.actives p s.feature p (by omega) (by omega)]
        rw [getD_orBits _ _ rfl]
        rw [getD_set_self st.actives p _ [] (by omega)]
        rw [getD_set_self _ s.feature _ _ (by rw [hrow p (by omega)]; exact hfe)]
        simp
      · rw [activesUpd_getD_self st.actives j s.feature p hpje (by omega)]
        exact getD_set_self _ s.feature _ _ (by rw [hrow j (by omega)]; exact hfe)

/-- Once the scan has processed an internal child, every bit of the child's
final active row is also set in its parent's final row: the child ORs its
completed row into the parent when it is processed, the child's row never
changes afterwards, and the parent's row only grows. -/
theorem upAux_subset (nodes : List Node) (nf : ℕ) (hwf : WFb nodes nf = true)
    (j : ℕ) (s : Split) (c0 c1 p : ℕ)
    (hj : nodes.get? j = some (Node.internal s c0 c1 p))
    (c : ℕ) (hcc : c = c0 ∨ c = c1)
    (s2 : Split) (d0 d1 : ℕ) (hc : nodes.get? c = some (Node.internal s2 d0 d1 j)) :
    ∀ (N : ℕ) (st : UpState), c < N → GoodSt nodes nf st → ∀ k,
      ((upAux nodes st N).actives.getD c []).getD k false = true →
      ((upAux nodes st N).actives.getD j []).getD k false = true := by
  intro N
  induction N with
  | zero => intro st h; omega
  | succ N ih =>
    intro st hcN hg k hbit
    rcases Nat.lt_or_ge c N with hlt | hge
    · simp only [upAux] at hbit ⊢
      exact ih (procNode nodes st N) hlt (procNode_good nodes nf st N hwf hg) k hbit
    · have hce : c = N := by omega
      subst hce
      simp only [upAux] at hbit ⊢
      obtain ⟨hs, hpd, hac, hrow⟩ := hg
      have hcl : c < nodes.length := get?_lt_length nodes c _ hc
      have hjc : j < c := by
        rcases wf_internal nodes nf j s c0 c1 p hwf hj with ⟨hh0, hh1, -, -, -, -, -, -, -⟩
        rcases hcc with rfl | rfl
        · exact hh0
        · exact hh1
      have hjl : j < nodes.length := by omega
      have hbit' : ((procNode nodes st c).actives.getD c []).getD k false = true := by
        rw [getD_congr_get? _ _ c []
          (upAux_actives_get? nodes nf hwf c (procNode nodes st c) c le_rfl)] at hbit
        exact hbit
      rw [procNode_internal nodes st c s2 d0 d1 j hc] at hbit'
      have hbit2 : (((st.actives.getD c []).set s2.feature true).getD k false) = true := by
        rw [show ((⟨(st.sizes.set c (childSum st.sizes d0 d1)),
          (st.preds.set c (predVal st.sizes st.preds d0 d1)),
          activesUpd st.actives c s2.feature j⟩ : UpState)).actives
            = activesUpd st.actives c s2.feature j from rfl] at hbit'
        rw [activesUpd_getD_self st.actives c s2.feature j (by omega) (by omega)] at hbit'
        exact hbit'
      apply upAux_bit_mono nodes nf hwf c (procNode nodes st c)
        (procNode_good nodes nf st c hwf ⟨hs, hpd, hac, hrow⟩)
      rw [procNode_internal nodes st c s2 d0 d1 j hc]
      show ((activesUpd st.actives c s2.feature j).getD j []).getD k false = true
      rw [activesUpd_getD_parent st.actives c s2.feature j (by omega) (by omega)]
      rw [getD_orBits _ _ (by
        rw [getD_set_self st.actives c _ [] (by omega),
          getD_set_ne st.actives c j _ [] (by omega), List.length_set,
          hrow c (by omega), hrow j (by omega)]) k]
      rw [getD_set_self st.actives c _ [] (by omega)]
      rw [hbit2]
      simp

/-- The state entering the bottom-up pass satisfies the shape invariant. -/
theorem GoodSt_init (nodes : List Node) (pcs : Domain) (types : List ℕ) :
    GoodSt nodes types.length
      ⟨(downPass nodes pcs types).sizes, List.replicate nodes.length none,
       List.replicate nodes.length (List.replicate types.length false)⟩ := by
  refine ⟨downPass_sizes_length nodes pcs types, by simp, by simp, ?_⟩
  intro m hm
  rw [getD_replicate_if, if_pos hm]
  simp

/-- The state entering the bottom-up pass has every active row all-clear. -/
theorem LeafClean_init (nodes : List Node) (pcs : Domain) (types : List ℕ) :
    LeafClean nodes types.length
      ⟨(downPass nodes pcs types).sizes, List.replicate nodes.length none,
       List.replicate nodes.length (List.replicate types.length false)⟩ := by
  intro l mu q hl
  show (List.replicate nodes.length (List.replicate types.length false)).getD l []
      = List.replicate types.length false
  rw [getD_replicate_if, if_pos (get?_lt_length nodes l _ hl)]

/-- C7. Active-variable invariant: after `precompute_marginals` on a
well-formed tree, every leaf's active-variable set is empty, and every
internal node's set contains its own split feature and every bit of each
child's set. -/
theorem C7_active_variables (nodes : List Node) (lower_cutoff upper_cutoff : ℚ)
    (pcs : Domain) (types : List ℕ) (hwf : WFb nodes types.length = true) :
    (∀ l mu q, nodes.get? l = some (Node.leaf mu q) → ∀ k,
      ((precompute_marginals nodes lower_cutoff upper_cutoff pcs types).actives.getD
        l []).getD k false = false) ∧
    (∀ j s c0 c1 p, nodes.get? j = some (Node.internal s c0 c1 p) →
      ((precompute_marginals nodes lower_cutoff upper_cutoff pcs types).actives.getD
        j []).getD s.feature false = true ∧
      (∀ c, c = c0 ∨ c = c1 → ∀ k,
        ((precompute_marginals nodes lower_cutoff upper_cutoff pcs types).actives.getD
          c []).getD k false = true →
        ((precompute_marginals nodes lower_cutoff upper_cutoff pcs types).actives.getD
          j []).getD k false = true)) := by
  have hpre : precompute_marginals nodes lower_cutoff upper_cutoff pcs types
      = upAux nodes
          ⟨(downPass nodes pcs types).sizes, List.replicate nodes.length none,
           List.replicate nodes.length (List.replicate types.length false)⟩
          nodes.length := rfl
  rw [hpre]
  constructor
  · intro l mu q hl k
    have hr := upAux_leafclean nodes types.length hwf nodes.length _
      (LeafClean_init nodes pcs types) l mu q hl
    rw [hr, getD_replicate_if]
    split <;> rfl
  · intro j s c0 c1 p hj
    constructor
    · exact upAux_ownbit nodes types.length hwf j s c0 c1 p hj nodes.length _
        (get?_lt_length nodes j _ hj) (GoodSt_init nodes pcs types)
    · intro c hcc k hbit
      rcases wf_internal nodes types.length j s c0 c1 p hwf hj with
        ⟨-, -, -, -, -, -, -, hch0, hch1⟩
      have hcn : ∃ nd, nodes.get? c = some nd ∧ nd.parent = j := by
        rcases hcc with rfl | rfl
        · exact hch0
        · exact hch1
      obtain ⟨nd, hnd, hpar⟩ := hcn
      cases nd with
      | leaf mu q =>
        have hfalse := upAux_leafclean nodes types.length hwf nodes.length _
          (LeafClean_init nodes pcs types) c mu q hnd
        rw [hfalse, getD_replicate_if] at hbit
        simp at hbit
      | internal s2 d0 d1 q =>
        have hq : q = j := hpar
        rw [hq] at hnd
        exact upAux_subset nodes types.length hwf j s c0 c1 p hj c hcc s2 d0 d1 hnd
          nodes.length _ (get?_lt_length nodes c _ hnd) (GoodSt_init nodes pcs types) k hbit

/-- C7 witness: on the scenario tree the root's active row has its own split
feature (feature 0) set. -/
theorem C7_active_variables_witness :
    ((precompute_marginals nodes2 0 1 pcs2 types2).actives.getD 0 []).getD 0 false = true :=
  ((C7_active_variables nodes2 0 1 pcs2 types2 (by decide)).2 0 split_half 1 2 0 rfl).1

/-- One catalog step preserves the number of per-feature entries. -/
theorem svStep_length (types : List ℕ) (sv : List (List ℚ)) (nd : Node) :
    (svStep types sv nd).length = sv.length := by
  cases nd with
  | leaf mu q => rfl
  | internal s c0 c1 p =>
    simp only [svStep]
    split <;> exact List.length_set sv _ _

/-- Scanning the nodes acts on each per-feature catalog entry independently:
the projection of the scan onto one feature is the fold of the per-feature
step. -/
theorem foldl_svStep_proj (types : List ℕ) (f : ℕ) (hf : f < types.length) :
    ∀ (l : List Node) (sv : List (List ℚ)), sv.length = types.length →
      (l.foldl (svStep types) sv).getD f [] = l.foldl (perFeatStep types f) (sv.getD f []) := by
  intro l
  induction l with
  | nil => intro sv _; rfl
  | cons nd t ih =>
    intro sv hlen
    rw [List.foldl_cons, List.foldl_cons]
    rw [ih (svStep types sv nd) (by rw [svStep_length]; exact hlen)]
    have hstep : (svStep types sv nd).getD f [] = perFeatStep types f (sv.getD f []) nd := by
      cases nd with
      | leaf mu q => rfl
      | internal s c0 c1 p =>
        simp only [svStep, perFeatStep]
        by_cases hsf : s.feature = f
        · subst hsf
          rw [if_pos rfl]
          by_cases hcond : 0 < types.getD s.feature 0 ∧ (sv.getD s.feature []).length = 0
          · rw [if_pos hcond, if_pos hcond]
            exact getD_set_self sv s.feature _ [] (by omega)
          · rw [if_neg hcond, if_neg hcond]
            exact getD_set_self sv s.feature _ [] (by omega)
        · rw [if_neg hsf]
          by_cases hcond : 0 < types.getD s.feature 0 ∧ (sv.getD s.feature []).length = 0
          · rw [if_pos hcond]
            exact getD_set_ne sv s.feature f _ [] hsf
          · rw [if_neg hcond]
            exact getD_set_ne sv s.feature f _ [] hsf
    rw [hstep]

/-- Once a catalog entry is nonempty, scanning further nodes appends exactly
the `get_num_split_value()` of every further internal node on that feature. -/
theorem perFeat_append_ne_nil (types : List ℕ) (f : ℕ) :
    ∀ (l : List Node) (acc : List ℚ), acc.length ≠ 0 →
      l.foldl (perFeatStep types f) acc
        = acc ++ (splitsOn l f).map Split.get_num_split_value := by
  intro l
  induction l with
  | nil => intro acc _; simp [splitsOn]
  | cons nd t ih =>
    intro acc hacc
    rw [List.foldl_cons]
    cases nd with
    | leaf mu q =>
      have h1 : perFeatStep types f acc (Node.leaf mu q) = acc := rfl
      rw [h1, ih acc hacc]
      simp [splitsOn, List.filterMap_cons]
    | internal s c0 c1 p =>
      by_cases hsf : s.feature = f
      · subst hsf
        have h1 : perFeatStep types s.feature acc (Node.internal s c0 c1 p)
            = acc ++ [s.get_num_split_value] := by
          simp only [perFeatStep]
          rw [if_pos trivial, if_neg (fun hc => hacc hc.2)]
        rw [h1, ih _ (by simp)]
        simp [splitsOn, List.filterMap_cons]
      · have h1 : perFeatStep types f acc (Node.internal s c0 c1 p) = acc := by
          simp only [perFeatStep]
          rw [if_neg hsf]
        rw [h1, ih acc hacc]
        simp [splitsOn, List.filterMap_cons, hsf]

/-- For a continuous feature the catalog entry accumulates exactly the
`get_num_split_value()` of every internal node splitting on it. -/
theorem perFeat_cont (types : List ℕ) (f : ℕ) (hty : types.getD f 0 = 0) :
    ∀ (l : List Node) (acc : List ℚ),
      l.foldl (perFeatStep types f) acc
        = acc ++ (splitsOn l f).map Split.get_num_split_value := by
  intro l
  induction l with
  | nil => intro acc; simp [splitsOn]
  | cons nd t ih =>
    intro acc
    rw [List.foldl_cons]
    cases nd with
    | leaf mu q =>
      have h1 : perFeatStep types f acc (Node.leaf mu q) = acc := rfl
      rw [h1, ih acc]
      simp [splitsOn, List.filterMap_cons]
    | internal s c0 c1 p =>
      by_cases hsf : s.feature = f
      · subst hsf
        have h1 : perFeatStep types s.feature acc (Node.internal s c0 c1 p)
            = acc ++ [s.get_num_split_value] := by
          simp only [perFeatStep]
          rw [if_pos trivial, if_neg (fun hc => by rw [hty] at hc; exact lt_irrefl 0 hc.1)]
        rw [h1, ih _]
        simp [splitsOn, List.filterMap_cons]
      · have h1 : perFeatStep types f acc (Node.internal s c0 c1 p) = acc := by
          simp only [perFeatStep]
          rw [if_neg hsf]
        rw [h1, ih acc]
        simp [splitsOn, List.filterMap_cons, hsf]

/-- For a categorical feature the catalog entry is seeded with the full
category range at the first internal node splitting on it, after which every
further such node appends its `get_num_split_value()`. -/
theorem perFeat_cat (types : List ℕ) (f : ℕ) (hk : 0 < types.getD f 0) :
    ∀ (l : List Node),
      l.foldl (perFeatStep types f) [] =
        (match splitsOn l f with
         | [] => ([] : List ℚ)
         | _ :: rest => rangeListQ (types.getD f 0) ++
             rest.map Split.get_num_split_value) := by
  intro l
  induction l with
  | nil => simp [splitsOn]
  | cons nd t ih =>
    rw [List.foldl_cons]
    cases nd with
    | leaf mu q =>
      have h1 : perFeatStep types f [] (Node.leaf mu q) = [] := rfl
      have h2 : splitsOn (Node.leaf mu q :: t) f = splitsOn t f := by
        simp [splitsOn, List.filterMap_cons]
      rw [h1, ih, h2]
    | internal s c0 c1 p =>
      by_cases hsf : s.feature = f
      · subst hsf
        have h1 : perFeatStep types s.feature [] (Node.internal s c0 c1 p)
            = rangeListQ (types.getD s.feature 0) := by
          simp only [perFeatStep]
          rw [if_pos trivial, if_pos ⟨hk, rfl⟩]
        have h2 : splitsOn (Node.internal s c0 c1 p :: t) s.feature
            = s :: splitsOn t s.feature := by
          simp [splitsOn, List.filterMap_cons]
        rw [h1, perFeat_append_ne_nil types s.feature t _ (by
          rw [rangeListQ, List.length_map, List.length_range]
          omega), h2]
      · have h1 : perFeatStep types f [] (Node.internal s c0 c1 p) = [] := by
          simp only [perFeatStep]
          rw [if_neg hsf]
        have h2 : splitsOn (Node.internal s c0 c1 p :: t) f = splitsOn t f := by
          simp [splitsOn, List.filterMap_cons, hsf]
        rw [h1, ih, h2]

/-- With an empty cache, `all_split_values` scans the nodes and sorts each
per-feature entry. -/
theorem all_split_values_nil_cache (nodes : List Node) (types : List ℕ) :
    all_split_values [] nodes types =
      (nodes.foldl (svStep types) (List.replicate types.length [])).map
        (List.insertionSort (fun a b => a ≤ b)) := rfl

/-- The catalog entry of one feature is the insertion sort of the scanned
entry. -/
theorem all_split_values_entry (nodes : List Node) (types : List ℕ) (f : ℕ) :
    (all_split_values [] nodes types).getD f [] =
      List.insertionSort (fun a b => a ≤ b)
        ((nodes.foldl (svStep types) (List.replicate types.length [])).getD f []) := by
  rw [all_split_values_nil_cache]
  show (List.map (List.insertionSort (fun a b => a ≤ b))
      (List.foldl (svStep types) (List.replicate types.length []) nodes)).getD f
      (List.insertionSort (fun a b => a ≤ b) []) =
    List.insertionSort (fun a b => a ≤ b)
      ((List.foldl (svStep types) (List.replicate types.length []) nodes).getD f [])
  exact List.getD_map _ _ _

/-- With a nonempty cache, `all_split_values` returns the cache unchanged. -/
theorem all_split_values_memo (cache : List (List ℚ)) (nodes : List Node)
    (types : List ℕ) (h : cache.length ≠ 0) :
    all_split_values cache nodes types = cache := by
  unfold all_split_values
  exact if_neg h

/-- Folding the catalog step over the nodes preserves the entry count. -/
theorem foldl_svStep_length (types : List ℕ) :
    ∀ (l : List Node) (sv : List (List ℚ)),
      (l.foldl (svStep types) sv).length = sv.length := by
  intro l
  induction l with
  | nil => intro sv; rfl
  | cons nd t ih =>
    intro sv
    rw [List.foldl_cons, ih, svStep_length]

/-- The computed catalog has one entry per feature. -/
theorem all_split_values_length (nodes : List Node) (types : List ℕ) :
    (all_split_values [] nodes types).length = types.length := by
  rw [all_split_values_nil_cache, List.length_map, foldl_svStep_length]
  simp

/-- C9 (amended). Split-value catalog: each per-feature entry of
`all_split_values` is sorted ascending; for a continuous feature its multiset
is exactly the multiset of `get_num_split_value()` over the internal nodes
splitting on it; for a categorical feature the entry is seeded with the full
category range `0..k-1` at the first internal node splitting on it and every
further such node appends its `get_num_split_value()` (so the entry is the
full range only when at most one node splits on the feature); and a second
call with the cached result returns it unchanged. -/
theorem C9_all_split_values (nodes : List Node) (types : List ℕ) (f : ℕ)
    (hf : f < types.length) :
    ((all_split_values [] nodes types).getD f []).Sorted (fun a b => a ≤ b) ∧
    (types.getD f 0 = 0 →
      ((all_split_values [] nodes types).getD f []).Perm
        ((splitsOn nodes f).map Split.get_num_split_value)) ∧
    (0 < types.getD f 0 →
      ((all_split_values [] nodes types).getD f []).Perm
        (match splitsOn nodes f with
         | [] => ([] : List ℚ)
         | _ :: rest => rangeListQ (types.getD f 0) ++
             rest.map Split.get_num_split_value)) ∧
    all_split_values (all_split_values [] nodes types) nodes types =
      all_split_values [] nodes types := by
  have hinit : (List.replicate types.length ([] : List ℚ)).getD f [] = [] := by
    rw [getD_replicate_if]
    split <;> rfl
  have hproj := foldl_svStep_proj types f hf nodes (List.replicate types.length []) (by simp)
  rw [hinit] at hproj
  refine ⟨?_, ?_, ?_, ?_⟩
  · rw [all_split_values_entry]
    exact List.sorted_insertionSort _ _
  · intro hty
    rw [all_split_values_entry, hproj, perFeat_cont types f hty nodes []]
    simpa using List.perm_insertionSort (fun a b => a ≤ b) _
  · intro hk
    rw [all_split_values_entry, hproj, perFeat_cat types f hk nodes]
    exact List.perm_insertionSort _ _
  · exact all_split_values_memo _ nodes types (by rw [all_split_values_length]; omega)

/-- C9 witness: on the scenario tree (one continuous feature split once at
1/2) the catalog entry for feature 0 is a permutation of the directly scanned
threshold list. -/
theorem C9_all_split_values_witness :
    ((all_split_values [] nodes2 types2).getD 0 []).Perm
      ((splitsOn nodes2 0).map Split.get_num_split_value) :=
  (C9_all_split_values nodes2 types2 0 (by decide)).2.1 (by decide)
